import Mathlib

/-!
Verification of the `downloader` repository (sync `src/sync/downloader.py`,
async `src/async/main.py`, and `src/main.py`).

The range planner `FileDownloader.__ranges` runs on Python floats (IEEE-754
binary64).  Every float produced by the planner is a dyadic rational, so the
embedding represents float values as pairs `⟨m, e⟩` standing for `m * 2 ^ e`
and implements binary64 round-to-nearest-even on the mantissa explicitly.
The model covers the normal range of binary64 (no overflow or subnormal
inputs occur for the integer content lengths and worker counts considered),
and was checked to agree with CPython's float arithmetic on the planner,
value for value, over a large family of inputs.
-/

namespace Downloader

/-- Structural (fuel-driven) floor of `log2`, kernel-friendly. -/
def nlog2 : ℕ → ℕ → ℕ
  | 0, _ => 0
  | fuel + 1, n => if n ≤ 1 then 0 else 1 + nlog2 fuel (n / 2)

/-- `natLog2 n = ⌊log2 n⌋` for `n ≥ 1` (and `0` for `n = 0`). -/
def natLog2 (n : ℕ) : ℕ := nlog2 n n

/-- Round the nonnegative ratio `N / D` to the nearest integer, ties to even. -/
def rneNat (N D : ℕ) : ℕ :=
  let q := N / D
  let r := N % D
  if 2 * r < D then q
  else if D < 2 * r then q + 1
  else if q % 2 = 0 then q else q + 1

/-- Signed version of `rneNat`: round `m / D` to nearest, ties to even. -/
def rneInt (m : ℤ) (D : ℕ) : ℤ :=
  if 0 ≤ m then (rneNat m.toNat D : ℤ) else -(rneNat (-m).toNat D : ℤ)

/-- A dyadic rational `m * 2 ^ e`: the exact value of an IEEE-754 binary64
number.  The representation is not canonical; `Dy.val` gives the value. -/
structure Dy where
  m : ℤ
  e : ℤ
deriving DecidableEq

/-- The exact rational value of a dyadic. -/
def Dy.val (x : Dy) : ℚ := (x.m : ℚ) * (2 : ℚ) ^ x.e

/-- Round `m * 2 ^ e` to 53 significant bits (binary64, round nearest even). -/
def flDy (m : ℤ) (e : ℤ) : Dy :=
  if m = 0 then ⟨0, 0⟩
  else
    let s := natLog2 m.natAbs
    if s ≤ 52 then ⟨m, e⟩
    else ⟨rneInt m (2 ^ (s - 52)), e + (s - 52)⟩

/-- Exact sum of two dyadics, as a mantissa/exponent pair (before rounding). -/
def addRaw (x y : Dy) : ℤ × ℤ :=
  let e := min x.e y.e
  (x.m * 2 ^ (x.e - e).toNat + y.m * 2 ^ (y.e - e).toNat, e)

/-- binary64 addition. -/
def flAdd (x y : Dy) : Dy := flDy (addRaw x y).1 (addRaw x y).2

/-- binary64 subtraction. -/
def flSub (x y : Dy) : Dy := flAdd x ⟨-y.m, y.e⟩

/-- binary64 multiplication. -/
def flMul (x y : Dy) : Dy := flDy (x.m * y.m) (x.e + y.e)

/-- The binary64 value of a natural number (Python `float(n)`). -/
def flOfNat (n : ℕ) : Dy := flDy (n : ℤ) 0

/-- Python's true division `a / b` on integers: the correctly rounded
binary64 value of the exact quotient. -/
def flDivNat (a b : ℕ) : Dy :=
  if a = 0 then ⟨0, 0⟩
  else
    let e : ℤ :=
      if b ≤ a then (natLog2 (a / b) : ℤ)
      else
        let ep := natLog2 (b / a)
        if a * 2 ^ ep = b then -(ep : ℤ) else -(ep : ℤ) - 1
    let k : ℤ := 52 - e
    ⟨(rneNat (a * 2 ^ k.toNat) (b * 2 ^ (-k).toNat) : ℤ), e - 52⟩

/-- Value comparison `x < y` of dyadics (IEEE comparison is exact). -/
def Dy.blt (x y : Dy) : Bool :=
  x.m * 2 ^ (x.e - min x.e y.e).toNat < y.m * 2 ^ (y.e - min x.e y.e).toNat

/-- Value equality of dyadics. -/
def Dy.beq (x y : Dy) : Bool :=
  x.m * 2 ^ (x.e - min x.e y.e).toNat = y.m * 2 ^ (y.e - min x.e y.e).toNat

/-- Python `int(x)` on a float: truncation toward zero. -/
def pyInt (x : Dy) : ℤ :=
  if 0 ≤ x.e then x.m * 2 ^ x.e.toNat
  else if 0 ≤ x.m then (x.m.toNat / 2 ^ (-x.e).toNat : ℕ)
  else -((-x.m).toNat / 2 ^ (-x.e).toNat : ℕ)

/-- One planned range: 1-based worker index, fractional start and end
(`FileDownloader.__ranges` keeps both as Python floats). -/
structure PlannedRange where
  idx : ℕ
  start : Dy
  stop : Dy
deriving DecidableEq

/-- The loop body of `FileDownloader.__ranges`:
`while current < content_length: ranges.append((c, (current, content_length /
max_concurrency * c))); current += content_length / max_concurrency; c += 1`.
`fuel` bounds the number of iterations; it is ample for every input the
theorems below touch (the source loop terminates within it there). -/
def rangesLoop (cl : ℕ) (step : Dy) : Dy → ℕ → ℕ → List PlannedRange
  | _, _, 0 => []
  | current, c, fuel + 1 =>
    if Dy.blt current ⟨(cl : ℤ), 0⟩ then
      ⟨c, current, flMul step (flOfNat c)⟩ ::
        rangesLoop cl step (flAdd current step) (c + 1) fuel
    else []

/-- `FileDownloader.__ranges` for a job with content length `cl` and
`max_concurrency = mc`. -/
def planRanges (cl mc : ℕ) : List PlannedRange :=
  rangesLoop cl (flDivNat cl mc) ⟨0, 0⟩ 1 (cl + mc + 2)

/-- The inclusive byte span actually sent in the `Range` header by
`FileDownloader.__downloader`: `bytes={int(range[0])}-{int(range[1] - 1)}`. -/
def spanOf (r : PlannedRange) : ℤ × ℤ := (pyInt r.start, pyInt (flSub r.stop ⟨1, 0⟩))

/-- Checks that a list of planned ranges is an exact chain: each range starts
where told, consecutive ends/starts agree exactly, and the chain closes at
`stop` with no rounding error.  (Boolean, value-level comparison.) -/
def rangesChain : Dy → List PlannedRange → Dy → Bool
  | next, [], stop => Dy.beq next stop
  | next, r :: rest, stop => Dy.beq r.start next && rangesChain r.stop rest stop

/-- The claimed planner property: ranges are contiguous, non-overlapping and
tile `[0, cl)` exactly — first start `0`, each end equal to the next start,
last end exactly `cl`. -/
def rangesExactCover (cl : ℕ) (rs : List PlannedRange) : Bool :=
  rangesChain ⟨0, 0⟩ rs ⟨(cl : ℤ), 0⟩

/-- Checks that integer spans form a chain: each span `(a, b)` satisfies
`a = next` and `a ≤ b`, and the next span starts at `b + 1`; the chain must
close exactly at `stop`. -/
def spansChain : ℤ → List (ℤ × ℤ) → ℤ → Bool
  | next, [], stop => next = stop
  | next, (a, b) :: rest, stop => a = next && decide (a ≤ b) && spansChain (b + 1) rest stop

/-- The claimed span property: the inclusive spans requested over the wire
are pairwise disjoint, consecutive, and cover bytes `0 .. cl - 1` exactly. -/
def spansPartition (cl : ℕ) (l : List (ℤ × ℤ)) : Bool := spansChain 0 l (cl : ℤ)

/-- The job-relevant slice of the filesystem: the scratch files
`{i}_{file_name}.temp` (indexed by the worker number `i`) and the final
output file `file_name`.  `none` means the file does not exist. -/
@[ext]
structure FS where
  temps : ℕ → Option (List ℕ)
  final : Option (List ℕ)

/-- A filesystem with no scratch files and no final file. -/
def emptyFS : FS := ⟨fun _ => none, none⟩

/-- Create or overwrite scratch file `i`. -/
def writeTemp (i : ℕ) (data : List ℕ) (fs : FS) : FS :=
  { fs with temps := fun j => if j = i then some data else fs.temps j }

/-- Remove scratch file `i`. -/
def removeTemp (i : ℕ) (fs : FS) : FS :=
  { fs with temps := fun j => if j = i then none else fs.temps j }

/-- `FileDownloader.__cl_counter`: the scratch-file indices
`range(1, max_concurrency + 1)`. -/
def clCounter (mc : ℕ) : List ℕ := List.range' 1 mc

/-- `FileDownloader.__delete_temps`: for each derivable scratch name, delete
it if it exists (`if exists(cl): remove(cl)`). -/
def deleteTemps (mc : ℕ) (fs : FS) : FS :=
  (clCounter mc).foldl (fun s i => if (s.temps i).isSome then removeTemp i s else s) fs

/-- Fuel-driven splitter behind `chunkList` (structural, kernel-friendly). -/
def chunkGo : ℕ → ℕ → List ℕ → List (List ℕ)
  | 0, _, _ => []
  | _, _, [] => []
  | fuel + 1, n, a :: as => (a :: as.take (n - 1)) :: chunkGo fuel n (as.drop (n - 1))

/-- Split a byte sequence into consecutive blocks of at most `n` bytes, the
way `iter_content(n)` and the 1 MiB block reads of `__merge_files` do. -/
def chunkList (n : ℕ) (l : List ℕ) : List (List ℕ) := chunkGo l.length n l

/-- Outcome of one fetch worker: success, or failure optionally leaving a
partially written scratch file behind. -/
inductive WOutcome where
  | ok : WOutcome
  | fail : Option (List ℕ) → WOutcome
deriving DecidableEq

/-- One invocation of the progress callback:
`progress(self.current, self.content_length, chunked)`. -/
structure ProgCall where
  current : ℕ
  total : ℕ
  chunked : ℕ
deriving DecidableEq

/-- Coordinator state while the workers run: filesystem, the shared
`self.current` byte counter, the list of progress calls made so far, and
whether some worker has failed. -/
structure RunState where
  fs : FS
  acc : ℕ
  trace : List ProgCall
  failed : Bool

/-- `FileDownloader.__run_progress`: `self.current += chunked;
self.progress(self.current, self.content_length, chunked)`. -/
def progStep (cl : ℕ) (s : RunState) (ch : List ℕ) : RunState :=
  { s with acc := s.acc + ch.length,
           trace := s.trace ++ [⟨s.acc + ch.length, cl, ch.length⟩] }

/-- `FileDownloader.__downloader` for one planned range: issue the ranged GET
(`server` maps the inclusive span to the response body), stream the body into
scratch file `idx` in `chunkSize`-byte chunks, reporting progress per chunk.
On failure the scratch file may be left partially written. -/
def runWorker (cl chunkSize : ℕ) (server : ℤ → ℤ → List ℕ) (outcome : ℕ → WOutcome)
    (s : RunState) (r : PlannedRange) : RunState :=
  match outcome r.idx with
  | .ok =>
    let sp := spanOf r
    let content := server sp.1 sp.2
    (chunkList chunkSize content).foldl (progStep cl)
      { s with fs := writeTemp r.idx content s.fs }
  | .fail none => { s with failed := true }
  | .fail (some d) => { s with fs := writeTemp r.idx d s.fs, failed := true }

/-- One step of `FileDownloader.__merge_files`: append the next scratch
file's contents (read in 1 MiB blocks) to the destination file; opening a
missing scratch file fails the merge, leaving the destination partial. -/
def mergeStep (p : FS × Bool) (i : ℕ) : FS × Bool :=
  match p with
  | (s, true) =>
    match s.temps i with
    | some data =>
      ({ s with final := some (s.final.getD [] ++ (chunkList (1024 * 1024) data).flatten) }, true)
    | none => (s, false)
  | (s, false) => (s, false)

/-- `FileDownloader.__merge_files`: open the destination for write (creating
it empty), then append each scratch file in index order.  The boolean records
whether the merge completed. -/
def mergeFiles (mc : ℕ) (fs : FS) : FS × Bool :=
  (clCounter mc).foldl mergeStep ({ fs with final := some [] }, true)

/-- The errors `download` can surface: the uniform
`ConnectionRefusedError` raised on any worker failure, or an error escaping
`__merge_files`. -/
inductive DlError where
  | connectionRefused : DlError
  | mergeError : DlError
deriving DecidableEq

deriving instance DecidableEq for Except

/-- Result of a download run: the outcome (final file content on success),
the resulting filesystem, and the progress-call trace. -/
structure DlResult where
  result : Except DlError (List ℕ)
  fs : FS
  trace : List ProgCall

/-- The tail of `FileDownloader.download` after all workers succeeded:
`self.__merge_files(); self.__delete_temps()` — note there is no exception
handler around the merge, so a merge failure skips `__delete_temps`. -/
def coordinatorFinish (mc : ℕ) (fs : FS) : Except DlError (List ℕ) × FS :=
  let p := mergeFiles mc fs
  if p.2 then (.ok (p.1.final.getD []), deleteTemps mc p.1)
  else (.error .mergeError, p.1)

/-- `FileDownloader.download`: plan the ranges, run one worker per range, and
then: on any worker failure, delete the derivable scratch files and raise the
uniform connection error; otherwise merge and clean up. -/
def download (cl mc chunkSize : ℕ) (server : ℤ → ℤ → List ℕ) (outcome : ℕ → WOutcome)
    (fs0 : FS) : DlResult :=
  let rs := planRanges cl mc
  let st := rs.foldl (runWorker cl chunkSize server outcome) ⟨fs0, 0, [], false⟩
  if st.failed then
    ⟨.error .connectionRefused, deleteTemps mc st.fs, st.trace⟩
  else
    let p := coordinatorFinish mc st.fs
    ⟨p.1, p.2, st.trace⟩

/-- A range-honouring origin serving the byte sequence `orig`: a valid
inclusive span `a ≤ b` is answered with those bytes (clamped at the end of
the resource); an invalid span (`a > b`) is ignored per RFC 7233 and the
whole resource is returned. -/
def sliceOrigin (orig : List ℕ) (a b : ℤ) : List ℕ :=
  if a ≤ b then (orig.drop a.toNat).take (b - a + 1).toNat else orig

/-- The `ValueError`s `FileDownloader.__init__` can raise. -/
inductive ConfigError where
  | pathNotExists : ConfigError
  | pathNotDir : ConfigError
deriving DecidableEq

/-- The parameters stored by a successful construction. -/
structure JobCfg where
  url : String
  fileName : String
  maxConcurrency : ℤ
  chunk : ℤ
deriving DecidableEq

/-- Python's `value or default` on an optional integer argument: `None` and
`0` are both falsy and replaced by the default. -/
def orDefault (v : Option ℤ) (d : ℤ) : ℤ :=
  match v with
  | none => d
  | some k => if k = 0 then d else k

/-- `FileDownloader.__init__`: validate the destination path (empty string,
missing, or not a directory each raise), then store the parameters, applying
`or`-defaulting to `max_concurrency` and `chunk`.  The second component
counts network requests made during construction (the sync variant probes the
content length once, after validation). -/
def initModel (url fileName : String) (pathNonempty pathExists pathIsDir : Bool)
    (mc chunk : Option ℤ) : Except ConfigError JobCfg × ℕ :=
  if !pathNonempty then (.error .pathNotExists, 0)
  else if !pathExists then (.error .pathNotExists, 0)
  else if !pathIsDir then (.error .pathNotDir, 0)
  else (.ok ⟨url, fileName, orDefault mc 4, orDefault chunk 1024⟩, 1)


/-- The pointwise description of an exactly planned range: 1-based index `c`,
start `(c-1)*s`, end `c*s`, where `s` is the common span size. -/
def ExactRange (s : ℕ) (r : PlannedRange) (c : ℕ) : Prop :=
  r.idx = c ∧ r.start.val = (((c - 1) * s : ℕ) : ℚ) ∧ r.stop.val = ((c * s : ℕ) : ℚ)

/-- Total number of bytes reported to the progress callback. -/
def sumChunked (tr : List ProgCall) : ℕ := (tr.map ProgCall.chunked).sum

/-- Invariant of the coordinator state: bytes reported so far equal the
shared counter, and the reported running totals are non-decreasing, ending
at the counter. -/
def TraceOK (st : RunState) : Prop :=
  sumChunked st.trace = st.acc ∧
  List.Chain' (· ≤ ·) (st.trace.map ProgCall.current) ∧
  ∀ x ∈ (st.trace.map ProgCall.current).getLast?, x ≤ st.acc

/-! ### Arithmetic facts about the binary64 model -/

theorem nlog2_spec : ∀ fuel n : ℕ, 1 ≤ n → n ≤ fuel →
    2 ^ nlog2 fuel n ≤ n ∧ n < 2 ^ (nlog2 fuel n + 1) := by
  intro fuel
  induction fuel with
  | zero => intro n h1 h2; omega
  | succ f ih =>
    intro n h1 h2
    by_cases hn : n ≤ 1
    · have hn1 : n = 1 := by omega
      subst hn1
      simp [nlog2]
    · have hrec := ih (n / 2) (by omega) (by omega)
      have hpow : 2 ^ (1 + nlog2 f (n / 2)) = 2 * 2 ^ nlog2 f (n / 2) := by
        rw [pow_add, pow_one]
      have hpow2 : 2 ^ (1 + nlog2 f (n / 2) + 1) = 2 * 2 ^ (nlog2 f (n / 2) + 1) := by
        rw [pow_succ, pow_add, pow_one, pow_succ]
        ring
      simp only [nlog2, if_neg hn]
      omega

theorem natLog2_spec (n : ℕ) (h : 1 ≤ n) :
    2 ^ natLog2 n ≤ n ∧ n < 2 ^ (natLog2 n + 1) :=
  nlog2_spec n n h le_rfl

theorem natLog2_le_of_lt {n k : ℕ} (h1 : 1 ≤ n) (h : n < 2 ^ (k + 1)) : natLog2 n ≤ k := by
  by_contra hlt
  push_neg at hlt
  have hs := (natLog2_spec n h1).1
  have hp : 2 ^ (k + 1) ≤ 2 ^ natLog2 n := Nat.pow_le_pow_right (by norm_num) (by omega)
  omega

theorem natLog2_le_iff {n k : ℕ} (h1 : 1 ≤ n) : natLog2 n ≤ k ↔ n < 2 ^ (k + 1) := by
  constructor
  · intro h
    have hs := (natLog2_spec n h1).2
    have hp : 2 ^ (natLog2 n + 1) ≤ 2 ^ (k + 1) := Nat.pow_le_pow_right (by norm_num) (by omega)
    omega
  · exact natLog2_le_of_lt h1

theorem natLog2_eq_of {n k : ℕ} (h1 : 2 ^ k ≤ n) (h2 : n < 2 ^ (k + 1)) : natLog2 n = k := by
  have hn : 1 ≤ n := le_trans (Nat.one_le_two_pow) h1
  have hs := natLog2_spec n hn
  have ha : natLog2 n ≤ k := natLog2_le_of_lt hn h2
  have hb : k ≤ natLog2 n := by
    by_contra h
    push_neg at h
    have hp : 2 ^ (natLog2 n + 1) ≤ 2 ^ k := Nat.pow_le_pow_right (by norm_num) (by omega)
    omega
  omega

theorem rneNat_exact (N D : ℕ) (hD : 0 < D) (h : D ∣ N) : rneNat N D = N / D := by
  unfold rneNat
  have hm : N % D = 0 := Nat.mod_eq_zero_of_dvd h
  simp [hm, hD]

theorem val_shift (x : Dy) (E : ℤ) (hE : E ≤ x.e) :
    x.val = ((x.m * 2 ^ (x.e - E).toNat : ℤ) : ℚ) * (2 : ℚ) ^ E := by
  unfold Dy.val
  push_cast
  rw [← zpow_natCast (2 : ℚ) (x.e - E).toNat, Int.toNat_of_nonneg (by omega : (0 : ℤ) ≤ x.e - E),
    mul_assoc, ← zpow_add₀ (two_ne_zero : (2 : ℚ) ≠ 0), sub_add_cancel]

theorem beq_iff_val (x y : Dy) : (Dy.beq x y = true) ↔ x.val = y.val := by
  have hx := val_shift x (min x.e y.e) (min_le_left _ _)
  have hy := val_shift y (min x.e y.e) (min_le_right _ _)
  simp only [Dy.beq, decide_eq_true_eq]
  rw [hx, hy]
  constructor
  · intro h; rw [h]
  · intro h
    have h2 : ((x.m * 2 ^ (x.e - min x.e y.e).toNat : ℤ) : ℚ)
        = ((y.m * 2 ^ (y.e - min x.e y.e).toNat : ℤ) : ℚ) :=
      mul_right_cancel₀ (zpow_ne_zero _ two_ne_zero) h
    exact_mod_cast h2

theorem blt_iff_val (x y : Dy) : (Dy.blt x y = true) ↔ x.val < y.val := by
  have hx := val_shift x (min x.e y.e) (min_le_left _ _)
  have hy := val_shift y (min x.e y.e) (min_le_right _ _)
  simp only [Dy.blt, decide_eq_true_eq]
  rw [hx, hy, mul_lt_mul_right (zpow_pos (by norm_num) _)]
  exact Int.cast_lt.symm

theorem val_mk_natCast (n : ℕ) : (Dy.mk (n : ℤ) 0).val = (n : ℚ) := by
  simp [Dy.val]

/-- Rounding `m * 2 ^ e` to binary64 is exact whenever the value is a
natural number not exceeding `2 ^ 53`. -/
theorem flDy_val (m e : ℤ) (n : ℕ) (h53 : n ≤ 2 ^ 53)
    (hv : (m : ℚ) * (2 : ℚ) ^ e = (n : ℚ)) : (flDy m e).val = (n : ℚ) := by
  by_cases hm0 : m = 0
  · subst hm0
    simp only [Int.cast_zero, zero_mul] at hv
    simp [flDy, Dy.val, ← hv]
  · have habs1 : 1 ≤ m.natAbs := Int.natAbs_pos.mpr hm0
    have hmpos : 0 < m := by
      rcases lt_trichotomy m 0 with h | h | h
      · exfalso
        have hneg : (m : ℚ) * (2 : ℚ) ^ e < 0 :=
          mul_neg_of_neg_of_pos (by exact_mod_cast h) (zpow_pos (by norm_num) e)
        rw [hv] at hneg
        have hge : (0 : ℚ) ≤ (n : ℚ) := Nat.cast_nonneg n
        linarith
      · exact absurd h hm0
      · exact h
    by_cases hsmall : m.natAbs < 2 ^ 53
    · have hs : natLog2 m.natAbs ≤ 52 := by
        have hiff := natLog2_le_iff (k := 52) habs1
        norm_num at hiff
        exact hiff.mpr hsmall
      simp only [flDy, if_neg hm0, if_pos hs]
      simpa [Dy.val] using hv
    · push_neg at hsmall
      have hs52 : ¬ natLog2 m.natAbs ≤ 52 := by
        intro hle
        have hlt := (natLog2_le_iff (k := 52) habs1).mp hle
        norm_num at hlt
        omega
      simp only [flDy, if_neg hm0, if_neg hs52]
      set s := natLog2 m.natAbs with hsdef
      have hspec := natLog2_spec m.natAbs habs1
      have hs53 : 53 ≤ s := by omega
      by_cases he : 0 ≤ e
      · -- e ≥ 0 forces m = 2 ^ 53, e = 0, n = 2 ^ 53
        have hcast : ((m * 2 ^ e.toNat : ℤ) : ℚ) = (n : ℚ) := by
          push_cast
          rw [← hv]
          congr 1
          rw [← zpow_natCast (2 : ℚ) e.toNat, Int.toNat_of_nonneg he]
        have hint : m * 2 ^ e.toNat = (n : ℤ) := by exact_mod_cast hcast
        have h2p : (0 : ℤ) < 2 ^ e.toNat := pow_pos (by norm_num) _
        have hm_le : m ≤ (n : ℤ) := by
          calc m = m * 1 := (mul_one m).symm
          _ ≤ m * 2 ^ e.toNat := by
              apply mul_le_mul_of_nonneg_left (by omega) (le_of_lt hmpos)
          _ = (n : ℤ) := hint
        have habs_eq : (m.natAbs : ℤ) = m := Int.natAbs_of_nonneg (le_of_lt hmpos)
        have hub : m.natAbs ≤ n := by
          have := hm_le
          omega
        have hn53 : n = 2 ^ 53 := by omega
        have hE0 : e.toNat = 0 := by
          by_contra hE
          have hE1 : 1 ≤ e.toNat := by omega
          have h2E : (2 : ℤ) ≤ 2 ^ e.toNat := by
            calc (2 : ℤ) = 2 ^ 1 := (pow_one 2).symm
            _ ≤ 2 ^ e.toNat := pow_le_pow_right₀ (by norm_num) hE1
          have hmz : (2 ^ 53 : ℤ) ≤ m := by omega
          have hbig : (2 ^ 53 : ℤ) * 2 ≤ m * 2 ^ e.toNat :=
            mul_le_mul hmz h2E (by norm_num) (by omega)
          rw [hint] at hbig
          have : (n : ℤ) = 2 ^ 53 := by exact_mod_cast congrArg (Nat.cast : ℕ → ℤ) hn53
          rw [this] at hbig
          norm_num at hbig
        have he0 : e = 0 := by omega
        have hm253 : m = 2 ^ 53 := by
          rw [hE0, pow_zero, mul_one] at hint
          rw [hint]
          exact_mod_cast congrArg (Nat.cast : ℕ → ℤ) hn53
        subst he0
        have hs_eq : s = 53 := by
          rw [hsdef, hm253]
          have : ((2 ^ 53 : ℤ)).natAbs = 2 ^ 53 := by decide
          rw [this]
          exact natLog2_eq_of (le_refl _) (by norm_num)
        rw [hs_eq, hm253]
        have hr : rneInt (2 ^ 53) (2 ^ (53 - 52)) = 2 ^ 52 := by decide
        rw [hr]
        unfold Dy.val
        rw [hn53]
        norm_num
      · push_neg at he
        set E := (-e).toNat with hEdef
        have hE1 : 1 ≤ E := by omega
        have heE : e = -(E : ℤ) := by omega
        have hzpow : (2 : ℚ) ^ e * (2 : ℚ) ^ (E : ℕ) = 1 := by
          rw [← zpow_natCast (2 : ℚ) E, ← zpow_add₀ (two_ne_zero : (2 : ℚ) ≠ 0), heE]
          norm_num
        have hcast : (m : ℚ) = ((n * 2 ^ E : ℕ) : ℚ) := by
          push_cast
          calc (m : ℚ) = (m : ℚ) * ((2 : ℚ) ^ e * (2 : ℚ) ^ (E : ℕ)) := by rw [hzpow, mul_one]
          _ = ((m : ℚ) * (2 : ℚ) ^ e) * (2 : ℚ) ^ (E : ℕ) := by ring
          _ = (n : ℚ) * 2 ^ E := by rw [hv]
        have hint : m = ((n * 2 ^ E : ℕ) : ℤ) := by exact_mod_cast hcast
        have hnat : m.natAbs = n * 2 ^ E := by
          rw [hint]
          exact Int.natAbs_ofNat _
        set t := s - 52 with htdef
        have ht1 : 1 ≤ t := by omega
        have hsle : s ≤ 53 + E := by
          have h1 : m.natAbs ≤ 2 ^ (53 + E) := by
            rw [hnat, pow_add]
            exact Nat.mul_le_mul_right _ h53
          have h2 : 2 ^ s ≤ 2 ^ (53 + E) := le_trans hspec.1 h1
          exact (Nat.pow_le_pow_iff_right (by norm_num)).mp h2
        have hdvd : 2 ^ t ∣ m.natAbs := by
          by_cases hcase : t ≤ E
          · rw [hnat]
            exact dvd_trans (pow_dvd_pow 2 hcase) (dvd_mul_left _ _)
          · have htE : t = E + 1 := by omega
            have hseq : s = 53 + E := by omega
            have hn53 : n = 2 ^ 53 := by
              have h1 : 2 ^ (53 + E) ≤ n * 2 ^ E := by
                rw [← hseq, ← hnat]
                exact hspec.1
              rw [pow_add] at h1
              have hp : 0 < 2 ^ E := pow_pos (by norm_num) E
              have h2 : 2 ^ 53 ≤ n := Nat.le_of_mul_le_mul_right h1 hp
              omega
            rw [hnat, hn53, htE, ← pow_add]
            exact pow_dvd_pow 2 (by omega)
        obtain ⟨kq, hkq⟩ := hdvd
        have hrne : rneInt m (2 ^ t) = (kq : ℤ) := by
          unfold rneInt
          rw [if_pos (le_of_lt hmpos)]
          have htn : m.toNat = m.natAbs := by omega
          rw [htn, rneNat_exact _ _ (pow_pos (by norm_num) t) ⟨kq, hkq⟩, hkq,
            Nat.mul_div_cancel_left kq (pow_pos (by norm_num) t)]
        rw [hrne]
        unfold Dy.val
        have habs_eq : (m.natAbs : ℤ) = m := Int.natAbs_of_nonneg (le_of_lt hmpos)
        have hmq : (m : ℚ) = (kq : ℚ) * (2 : ℚ) ^ (t : ℕ) := by
          have h1 : m.natAbs = 2 ^ t * kq := hkq
          have h2 : (m : ℚ) = ((m.natAbs : ℕ) : ℚ) := by
            rw [Int.cast_natAbs, abs_of_nonneg (le_of_lt hmpos)]
          rw [h2, h1]
          push_cast
          ring
        rw [show ((kq : ℤ) : ℚ) = (kq : ℚ) from by push_cast; ring]
        have hexp : e + ((s : ℤ) - 52) = e + (t : ℤ) := by omega
        rw [hexp]
        calc (kq : ℚ) * (2 : ℚ) ^ (e + (t : ℤ))
            = (kq : ℚ) * ((2 : ℚ) ^ e * (2 : ℚ) ^ (t : ℕ)) := by
              rw [← zpow_natCast (2 : ℚ) t, ← zpow_add₀ (two_ne_zero : (2 : ℚ) ≠ 0)]
        _ = ((kq : ℚ) * (2 : ℚ) ^ (t : ℕ)) * (2 : ℚ) ^ e := by ring
        _ = (m : ℚ) * (2 : ℚ) ^ e := by rw [← hmq]
        _ = (n : ℚ) := hv

theorem addRaw_val (x y : Dy) :
    (((addRaw x y).1 : ℤ) : ℚ) * (2 : ℚ) ^ (addRaw x y).2 = x.val + y.val := by
  have hx := val_shift x (min x.e y.e) (min_le_left _ _)
  have hy := val_shift y (min x.e y.e) (min_le_right _ _)
  unfold addRaw
  rw [hx, hy]
  push_cast
  ring

/-- binary64 addition is exact on natural values up to `2 ^ 53`. -/
theorem flAdd_val (x y : Dy) (n : ℕ) (h53 : n ≤ 2 ^ 53) (hv : x.val + y.val = (n : ℚ)) :
    (flAdd x y).val = (n : ℚ) := by
  unfold flAdd
  exact flDy_val _ _ n h53 (by rw [addRaw_val]; exact hv)

/-- binary64 multiplication is exact on natural values up to `2 ^ 53`. -/
theorem flMul_val (x y : Dy) (n : ℕ) (h53 : n ≤ 2 ^ 53) (hv : x.val * y.val = (n : ℚ)) :
    (flMul x y).val = (n : ℚ) := by
  unfold flMul
  apply flDy_val _ _ n h53
  have hm : ((x.m * y.m : ℤ) : ℚ) * (2 : ℚ) ^ (x.e + y.e) = x.val * y.val := by
    unfold Dy.val
    push_cast
    rw [zpow_add₀ (two_ne_zero : (2 : ℚ) ≠ 0)]
    ring
  rw [hm]
  exact hv

/-- Converting a natural number `n ≤ 2 ^ 53` to binary64 is exact. -/
theorem flOfNat_val (n : ℕ) (h53 : n ≤ 2 ^ 53) : (flOfNat n).val = (n : ℚ) := by
  unfold flOfNat
  apply flDy_val _ _ n h53
  norm_num

/-- binary64 subtraction is exact on natural values up to `2 ^ 53`. -/
theorem flSub_val (x y : Dy) (n : ℕ) (h53 : n ≤ 2 ^ 53) (hv : x.val - y.val = (n : ℚ)) :
    (flSub x y).val = (n : ℚ) := by
  unfold flSub
  apply flAdd_val _ _ n h53
  have hneg : (Dy.mk (-y.m) y.e).val = -y.val := by
    unfold Dy.val
    push_cast
    ring
  rw [hneg, ← sub_eq_add_neg]
  exact hv

/-- Python `int()` of a float whose value is the natural number `n`. -/
theorem pyInt_val (x : Dy) (n : ℕ) (hv : x.val = (n : ℚ)) : pyInt x = (n : ℤ) := by
  unfold pyInt
  by_cases he : 0 ≤ x.e
  · rw [if_pos he]
    have hc : ((x.m * 2 ^ x.e.toNat : ℤ) : ℚ) = (n : ℚ) := by
      rw [← hv]
      unfold Dy.val
      push_cast
      rw [← zpow_natCast (2 : ℚ) x.e.toNat, Int.toNat_of_nonneg he]
    exact_mod_cast hc
  · push_neg at he
    rw [if_neg (not_le.mpr he)]
    set E := (-x.e).toNat with hEdef
    have heE : x.e = -(E : ℤ) := by omega
    have hzpow : (2 : ℚ) ^ x.e * (2 : ℚ) ^ (E : ℕ) = 1 := by
      rw [← zpow_natCast (2 : ℚ) E, ← zpow_add₀ (two_ne_zero : (2 : ℚ) ≠ 0), heE]
      norm_num
    have hcast : (x.m : ℚ) = ((n * 2 ^ E : ℕ) : ℚ) := by
      push_cast
      calc (x.m : ℚ) = (x.m : ℚ) * ((2 : ℚ) ^ x.e * (2 : ℚ) ^ (E : ℕ)) := by
            rw [hzpow, mul_one]
      _ = ((x.m : ℚ) * (2 : ℚ) ^ x.e) * (2 : ℚ) ^ (E : ℕ) := by ring
      _ = (n : ℚ) * 2 ^ E := by rw [show (x.m : ℚ) * (2 : ℚ) ^ x.e = x.val from rfl, hv]
    have hint : x.m = ((n * 2 ^ E : ℕ) : ℤ) := by exact_mod_cast hcast
    have hm0 : 0 ≤ x.m := by
      rw [hint]
      exact Int.natCast_nonneg _
    rw [if_pos hm0]
    have htn : x.m.toNat = n * 2 ^ E := by
      rw [hint, Int.toNat_natCast]
    rw [htn, Nat.mul_div_cancel n (pow_pos (by norm_num) E)]

/-- Python's `a / b` (true division of integers) is exact when `b` divides
`a` and the quotient is a natural number `s` with `1 ≤ s ≤ 2 ^ 53`. -/
theorem flDivNat_exact (b s : ℕ) (hb : 1 ≤ b) (hs : 1 ≤ s) (h53 : s ≤ 2 ^ 53) :
    (flDivNat (s * b) b).val = (s : ℚ) := by
  have ha0 : s * b ≠ 0 := Nat.mul_ne_zero (by omega) (by omega)
  have hba : b ≤ s * b := Nat.le_mul_of_pos_left b (by omega)
  have hdiv : s * b / b = s := Nat.mul_div_cancel s (by omega)
  have hspec := natLog2_spec s hs
  simp only [flDivNat, if_neg ha0, if_pos hba, hdiv]
  set E := natLog2 s with hEdef
  by_cases hE : E ≤ 52
  · have hk1 : ((52 - (E : ℤ)).toNat) = 52 - E := by omega
    have hk2 : ((-(52 - (E : ℤ))).toNat) = 0 := by omega
    rw [hk1, hk2, pow_zero, mul_one]
    have hdvd : b ∣ s * b * 2 ^ (52 - E) := ⟨s * 2 ^ (52 - E), by ring⟩
    rw [rneNat_exact _ _ (by omega) hdvd]
    have hq : s * b * 2 ^ (52 - E) / b = s * 2 ^ (52 - E) := by
      rw [show s * b * 2 ^ (52 - E) = s * 2 ^ (52 - E) * b from by ring]
      exact Nat.mul_div_cancel _ (by omega)
    rw [hq]
    unfold Dy.val
    push_cast
    rw [← zpow_natCast (2 : ℚ) (52 - E), mul_assoc, ← zpow_add₀ (two_ne_zero : (2 : ℚ) ≠ 0)]
    rw [show (((52 - E : ℕ) : ℤ) + ((E : ℤ) - 52)) = 0 from by omega, zpow_zero, mul_one]
  · have hE53 : E = 53 := by
      have hle : E ≤ 53 := by
        apply natLog2_le_of_lt hs
        calc s ≤ 2 ^ 53 := h53
        _ < 2 ^ (53 + 1) := by norm_num
      omega
    have hs53 : s = 2 ^ 53 := by
      have h1 := hspec.1
      rw [hE53] at h1
      omega
    have hk1 : ((52 - (E : ℤ)).toNat) = 0 := by omega
    have hk2 : ((-(52 - (E : ℤ))).toNat) = 1 := by omega
    rw [hk1, hk2, pow_zero, mul_one, pow_one]
    have hdvd : b * 2 ∣ s * b := ⟨2 ^ 52, by rw [hs53]; ring⟩
    rw [rneNat_exact _ _ (by omega) hdvd]
    have hq : s * b / (b * 2) = 2 ^ 52 := by
      rw [hs53, show (2 : ℕ) ^ 53 * b = 2 ^ 52 * (b * 2) from by ring]
      exact Nat.mul_div_cancel _ (by omega)
    rw [hq]
    unfold Dy.val
    rw [hE53, hs53]
    push_cast
    norm_num

/-- In the exact regime (`cl = s * mc`, everything within `2 ^ 53`), the
planner loop emits precisely the ranges `c = k+1 .. mc`, every endpoint an
exact multiple of the span size `s`: no rounding occurs. -/
theorem rangesLoop_exact (mc s : ℕ) (hmc : 1 ≤ mc) (hs : 1 ≤ s)
    (h53 : s * mc ≤ 2 ^ 53) (step : Dy) (hstep : step.val = (s : ℚ)) :
    ∀ fuel k current, mc - k ≤ fuel → k ≤ mc → current.val = ((k * s : ℕ) : ℚ) →
      List.Forall₂ (ExactRange s)
        (rangesLoop (s * mc) step current (k + 1) fuel) (List.range' (k + 1) (mc - k)) := by
  intro fuel
  induction fuel with
  | zero =>
    intro k current hfuel hk hcur
    have h0 : mc - k = 0 := by omega
    rw [h0]
    exact List.Forall₂.nil
  | succ f ih =>
    intro k current hfuel hk hcur
    by_cases hklt : k < mc
    · have hmul : k * s < s * mc := by
        calc k * s < mc * s := Nat.mul_lt_mul_of_lt_of_le hklt (le_refl s) (by omega)
        _ = s * mc := Nat.mul_comm mc s
      have hcond : Dy.blt current ⟨((s * mc : ℕ) : ℤ), 0⟩ = true := by
        rw [blt_iff_val, hcur, val_mk_natCast]
        exact_mod_cast hmul
      have hle1 : (k + 1) * s ≤ 2 ^ 53 := by
        calc (k + 1) * s ≤ mc * s := Nat.mul_le_mul_right s (by omega)
        _ = s * mc := Nat.mul_comm mc s
        _ ≤ 2 ^ 53 := h53
      have hkmc : k + 1 ≤ 2 ^ 53 := by
        have hsle : k + 1 ≤ (k + 1) * s := Nat.le_mul_of_pos_right _ (by omega)
        omega
      simp only [rangesLoop, hcond, if_true]
      have hrange : mc - k = (mc - (k + 1)) + 1 := by omega
      rw [hrange, List.range'_succ]
      apply List.Forall₂.cons
      · refine ⟨rfl, ?_, ?_⟩
        · rw [Nat.add_sub_cancel, hcur]
        · apply flMul_val _ _ _ hle1
          rw [hstep, flOfNat_val (k + 1) hkmc]
          push_cast
          ring
      · have hnext : (flAdd current step).val = (((k + 1) * s : ℕ) : ℚ) := by
          apply flAdd_val _ _ _ hle1
          rw [hcur, hstep]
          push_cast
          ring
        exact ih (k + 1) (flAdd current step) (by omega) (by omega) hnext
    · have hkeq : k = mc := by omega
      have hne : ¬ (current.val < (Dy.mk ((s * mc : ℕ) : ℤ) 0).val) := by
        rw [hcur, val_mk_natCast, hkeq, Nat.mul_comm mc s]
        exact lt_irrefl _
      have hcond : Dy.blt current ⟨((s * mc : ℕ) : ℤ), 0⟩ = false := by
        rw [← Bool.not_eq_true, blt_iff_val]
        exact hne
      simp only [rangesLoop, hcond, Bool.false_eq_true, if_false]
      rw [show mc - k = 0 from by omega]
      exact List.Forall₂.nil

/-- `FileDownloader.__ranges` in the exact regime: exactly `mc` ranges with
indices `1 .. mc` and exact endpoints `(c-1)*s, c*s`. -/
theorem planRanges_exact (mc s : ℕ) (hmc : 1 ≤ mc) (hs : 1 ≤ s) (h53 : s * mc ≤ 2 ^ 53) :
    List.Forall₂ (ExactRange s) (planRanges (s * mc) mc) (List.range' 1 mc) := by
  unfold planRanges
  have hsle : s ≤ 2 ^ 53 := by
    have h1 : s ≤ s * mc := Nat.le_mul_of_pos_right _ (by omega)
    omega
  have hstep : (flDivNat (s * mc) mc).val = (s : ℚ) := flDivNat_exact mc s hmc hs hsle
  have h0 : (Dy.mk 0 0).val = ((0 * s : ℕ) : ℚ) := by simp [Dy.val]
  have hres := rangesLoop_exact mc s hmc hs h53 _ hstep (s * mc + mc + 2) 0 ⟨0, 0⟩
    (by omega) (by omega) h0
  simpa using hres

/-- The wire span of an exactly planned range `c` is the inclusive integer
interval `[(c-1)*s, c*s - 1]`. -/
theorem spanOf_exact (s c : ℕ) (r : PlannedRange) (hs : 1 ≤ s) (hc : 1 ≤ c)
    (h53 : c * s ≤ 2 ^ 53) (hr : ExactRange s r c) :
    spanOf r = ((((c - 1) * s : ℕ) : ℤ), ((c * s - 1 : ℕ) : ℤ)) := by
  obtain ⟨hidx, hstart, hstop⟩ := hr
  unfold spanOf
  have h1 : pyInt r.start = (((c - 1) * s : ℕ) : ℤ) := pyInt_val _ _ hstart
  have hcs1 : 1 ≤ c * s := by
    calc 1 = 1 * 1 := by norm_num
    _ ≤ c * s := Nat.mul_le_mul hc hs
  have h2 : (flSub r.stop ⟨1, 0⟩).val = ((c * s - 1 : ℕ) : ℚ) := by
    apply flSub_val _ _ _ (by omega)
    rw [hstop]
    have hone : (Dy.mk 1 0).val = (1 : ℚ) := by simp [Dy.val]
    rw [hone]
    push_cast [hcs1]
    ring
  rw [h1, pyInt_val _ _ h2]

/-- Mapping `spanOf` over an exactly planned list yields the integer spans
`[(c-1)*s, c*s - 1]` in index order. -/
theorem map_spanOf_exact (s : ℕ) (hs : 1 ≤ s) :
    ∀ l₁ l₂, List.Forall₂ (ExactRange s) l₁ l₂ → (∀ c ∈ l₂, 1 ≤ c ∧ c * s ≤ 2 ^ 53) →
      l₁.map spanOf = l₂.map (fun c => ((((c - 1) * s : ℕ) : ℤ), ((c * s - 1 : ℕ) : ℤ))) := by
  intro l₁ l₂ hF
  induction hF with
  | nil => intro _; rfl
  | cons hr hF ih =>
    intro hmem
    simp only [List.map_cons]
    have hb := hmem _ (List.mem_cons_self _ _)
    rw [spanOf_exact s _ _ hs hb.1 hb.2 hr,
      ih (fun c hc => hmem c (List.mem_cons_of_mem _ hc))]

/-- The exact spans form a perfect chain from `k*s` to `(k+m)*s`. -/
theorem spansChain_exact (s : ℕ) (hs : 1 ≤ s) :
    ∀ m k, spansChain ((k * s : ℕ) : ℤ)
      ((List.range' (k + 1) m).map (fun c => ((((c - 1) * s : ℕ) : ℤ), ((c * s - 1 : ℕ) : ℤ))))
      (((k + m) * s : ℕ) : ℤ) = true := by
  intro m
  induction m with
  | zero =>
    intro k
    simp only [List.range', List.map_nil, spansChain]
    norm_num
  | succ mm ih =>
    intro k
    rw [List.range'_succ]
    simp only [List.map_cons, spansChain, Bool.and_eq_true, decide_eq_true_eq]
    have hcs1 : 1 ≤ (k + 1) * s := by
      calc 1 = 1 * 1 := by norm_num
      _ ≤ (k + 1) * s := Nat.mul_le_mul (by omega) hs
    refine ⟨⟨?_, ?_⟩, ?_⟩
    · rw [Nat.add_sub_cancel]
    · have hle : k * s ≤ (k + 1) * s - 1 := by
        have : k * s + 1 ≤ (k + 1) * s := by
          calc k * s + 1 ≤ k * s + s := by omega
          _ = (k + 1) * s := by ring
        omega
      rw [Nat.add_sub_cancel]
      exact_mod_cast hle
    · have hnext : (((k + 1) * s - 1 : ℕ) : ℤ) + 1 = (((k + 1) * s : ℕ) : ℤ) := by
        push_cast [hcs1]
        ring
      rw [hnext]
      have := ih (k + 1)
      rw [show k + 1 + mm = k + (mm + 1) from by omega] at this
      exact this

/-- C10's partition property holds in the exact regime. -/
theorem spansPartition_exact (mc s : ℕ) (hmc : 1 ≤ mc) (hs : 1 ≤ s) (h53 : s * mc ≤ 2 ^ 53) :
    spansPartition (s * mc) ((planRanges (s * mc) mc).map spanOf) = true ∧
    (planRanges (s * mc) mc).length = mc := by
  have hF := planRanges_exact mc s hmc hs h53
  have hmem : ∀ c ∈ List.range' 1 mc, 1 ≤ c ∧ c * s ≤ 2 ^ 53 := by
    intro c hc
    have hb := List.mem_range'_1.mp hc
    constructor
    · omega
    · calc c * s ≤ mc * s := Nat.mul_le_mul_right s (by omega)
      _ = s * mc := Nat.mul_comm mc s
      _ ≤ 2 ^ 53 := h53
  have hmap := map_spanOf_exact s hs _ _ hF hmem
  constructor
  · unfold spansPartition
    rw [hmap]
    have hch := spansChain_exact s hs mc 0
    simp only [Nat.zero_mul, Nat.cast_zero, Nat.zero_add] at hch
    rw [show (s * mc : ℕ) = mc * s from Nat.mul_comm s mc]
    exact hch
  · rw [List.Forall₂.length_eq hF, List.length_range']

/-! ### Claim theorems: the range planner (C1, C2, C10) -/

/-- C1: the claim that for every `contentLength ≥ 0` and `workerCount ≥ 1`
the planned ranges are contiguous, non-overlapping and tile `[0, contentLength)`
exactly (first start 0, each end equal to the next start, last end equal to
`contentLength` with no rounding error) fails on the code: at
`contentLength = 1`, `workerCount = 6` the float loop emits 7 ranges, the
chain of endpoints is broken, and the last range's end is `7 * fl(1/6) ≠ 1`.
The spec explicitly demands exact fractional arithmetic; the code's
accumulated binary64 arithmetic is the slip. -/
theorem c1_planner_not_exact_cover :
    rangesExactCover 1 (planRanges 1 6) = false ∧
    (planRanges 1 6).length = 7 ∧
    ∃ r, (planRanges 1 6).getLast? = some r ∧ r.stop.val ≠ ((1 : ℕ) : ℚ) := by
  refine ⟨by decide, by decide, ⟨7, ⟨9007199254740991, -53⟩, ⟨5254199565265578, -52⟩⟩, by decide, ?_⟩
  intro hv
  have hbeq : Dy.beq ⟨5254199565265578, -52⟩ ⟨(1 : ℤ), 0⟩ = false := by decide
  have htrue : Dy.beq ⟨(5254199565265578 : ℤ), -52⟩ ⟨(1 : ℤ), 0⟩ = true := by
    rw [beq_iff_val]
    have h1 : (Dy.mk ((1 : ℕ) : ℤ) 0).val = ((1 : ℕ) : ℚ) := val_mk_natCast 1
    push_cast at h1 ⊢
    rw [h1]
    exact_mod_cast hv
  rw [hbeq] at htrue
  cases htrue

/-- C2: the claim that the planner emits exactly `workerCount` ranges with
indices `1 .. workerCount` fails: at `contentLength = 1`, `workerCount = 6`
it emits 7 ranges, indexed `1 .. 7` — the code's own merge and cleanup only
ever touch indices `1 .. workerCount`, so range 7's scratch file would be
neither merged nor deleted.  The degenerate `contentLength = 0` part of the
claim does hold (empty sequence). -/
theorem c2_range_count_mismatch :
    (planRanges 1 6).map PlannedRange.idx = [1, 2, 3, 4, 5, 6, 7] ∧
    (planRanges 1 6).length ≠ 6 ∧
    planRanges 0 6 = [] := by
  refine ⟨by decide, by decide, by decide⟩

/-- C10 counterexample: at `contentLength = 1`, `workerCount = 2` the
requested inclusive header spans are `(0,0)` and `(0,0)` — overlapping, not
consecutive, so the claimed partition of `0 .. contentLength - 1` fails. -/
theorem c10_counterexample_spans_overlap :
    (planRanges 1 2).map spanOf = [(0, 0), (0, 0)] ∧
    spansPartition 1 ((planRanges 1 2).map spanOf) = false := by
  refine ⟨by decide, by decide⟩

/-- C10 amended: when `workerCount` divides `contentLength` (and the values
are within binary64's exact integer range `≤ 2 ^ 53`), the truncated header
spans are pairwise disjoint, consecutive — each starting one byte after the
previous span's end — and cover bytes `0 .. contentLength - 1` exactly, one
span per worker. -/
theorem c10_amended_spans_partition (cl mc : ℕ) (hmc : 1 ≤ mc) (hdvd : mc ∣ cl)
    (hcl : 1 ≤ cl) (h53 : cl ≤ 2 ^ 53) :
    spansPartition cl ((planRanges cl mc).map spanOf) = true ∧
    (planRanges cl mc).length = mc := by
  obtain ⟨s, hseq⟩ := hdvd
  have hs1 : 1 ≤ s := by
    rcases Nat.eq_zero_or_pos s with h | h
    · subst h
      rw [Nat.mul_zero] at hseq
      omega
    · exact h
  have hrw : cl = s * mc := by rw [hseq, Nat.mul_comm]
  subst hrw
  exact spansPartition_exact mc s hmc hs1 (by omega)

/-- Witness for C10's amended claim at `contentLength = 12`, `workerCount = 4`. -/
theorem c10_amended_spans_partition_witness :
    spansPartition 12 ((planRanges 12 4).map spanOf) = true ∧
    (planRanges 12 4).length = 4 :=
  c10_amended_spans_partition 12 4 (by decide) (by decide) (by decide) (by decide)

/-! ### Filesystem-side lemmas: chunking, cleanup, workers, merge -/

theorem chunkGo_flatten : ∀ (fuel n : ℕ) (l : List ℕ), l.length ≤ fuel →
    (chunkGo fuel n l).flatten = l := by
  intro fuel
  induction fuel with
  | zero =>
    intro n l h
    cases l with
    | nil => rfl
    | cons a as => simp at h
  | succ f ih =>
    intro n l h
    cases l with
    | nil => rfl
    | cons a as =>
      simp only [chunkGo, List.flatten_cons]
      rw [ih n (as.drop (n - 1)) (by simp at h ⊢; omega)]
      simp [List.cons_append, List.take_append_drop]

/-- Reading a byte sequence in blocks and concatenating the blocks
reproduces the sequence. -/
theorem chunkList_flatten (n : ℕ) (l : List ℕ) : (chunkList n l).flatten = l :=
  chunkGo_flatten _ n l le_rfl

theorem chunkList_sum_length (n : ℕ) (l : List ℕ) :
    ((chunkList n l).map List.length).sum = l.length := by
  rw [← List.length_flatten, chunkList_flatten]

theorem delFold_temps : ∀ (l : List ℕ) (fs : FS) (j : ℕ),
    ((l.foldl (fun s i => if (s.temps i).isSome then removeTemp i s else s) fs).temps j)
      = if j ∈ l then none else fs.temps j := by
  intro l
  induction l with
  | nil => intro fs j; simp
  | cons i t ih =>
    intro fs j
    simp only [List.foldl_cons]
    rw [ih]
    by_cases hjt : j ∈ t
    · simp [hjt]
    · by_cases hji : j = i
      · subst hji
        by_cases hsome : (fs.temps j).isSome
        · simp [hjt, hsome, removeTemp]
        · simp [hjt, hsome, Option.not_isSome_iff_eq_none.mp hsome]
      · by_cases hsome : (fs.temps i).isSome <;>
          simp [hjt, hji, hsome, removeTemp, List.mem_cons]

theorem delFold_final : ∀ (l : List ℕ) (fs : FS),
    ((l.foldl (fun s i => if (s.temps i).isSome then removeTemp i s else s) fs).final)
      = fs.final := by
  intro l
  induction l with
  | nil => intro fs; rfl
  | cons i t ih =>
    intro fs
    simp only [List.foldl_cons]
    rw [ih]
    by_cases hsome : (fs.temps i).isSome <;> simp [hsome, removeTemp]

/-- Pointwise description of `__delete_temps`: scratch files `1 .. mc` are
gone, everything else is untouched. -/
theorem deleteTemps_temps (mc j : ℕ) (fs : FS) :
    (deleteTemps mc fs).temps j = if 1 ≤ j ∧ j ≤ mc then none else fs.temps j := by
  unfold deleteTemps
  rw [delFold_temps]
  have hmem : j ∈ clCounter mc ↔ 1 ≤ j ∧ j ≤ mc := by
    unfold clCounter
    rw [List.mem_range'_1]
    omega
  by_cases hj : 1 ≤ j ∧ j ≤ mc
  · rw [if_pos (hmem.mpr hj), if_pos hj]
  · rw [if_neg (fun hc => hj (hmem.mp hc)), if_neg hj]

theorem deleteTemps_final (mc : ℕ) (fs : FS) : (deleteTemps mc fs).final = fs.final :=
  delFold_final _ fs

/-! ### Worker and merge lemmas -/

theorem progFold_fs (cl : ℕ) : ∀ (l : List (List ℕ)) (st : RunState),
    ((l.foldl (progStep cl) st).fs = st.fs) ∧ ((l.foldl (progStep cl) st).failed = st.failed) := by
  intro l
  induction l with
  | nil => intro st; exact ⟨rfl, rfl⟩
  | cons c t ih =>
    intro st
    simp only [List.foldl_cons]
    exact ih (progStep cl st c)

theorem progFold_acc (cl : ℕ) : ∀ (l : List (List ℕ)) (st : RunState),
    (l.foldl (progStep cl) st).acc = st.acc + (l.map List.length).sum := by
  intro l
  induction l with
  | nil => intro st; simp
  | cons c t ih =>
    intro st
    simp only [List.foldl_cons, List.map_cons, List.sum_cons]
    rw [ih]
    simp [progStep]
    omega

/-- A worker with a successful outcome writes exactly the origin's response
for its span into its scratch file and leaves the failure flag alone. -/
theorem runWorker_ok (cl ch : ℕ) (server : ℤ → ℤ → List ℕ) (outcome : ℕ → WOutcome)
    (st : RunState) (r : PlannedRange) (h : outcome r.idx = .ok) :
    ((runWorker cl ch server outcome st r).fs
        = writeTemp r.idx (server (spanOf r).1 (spanOf r).2) st.fs) ∧
    ((runWorker cl ch server outcome st r).failed = st.failed) ∧
    ((runWorker cl ch server outcome st r).acc
        = st.acc + (server (spanOf r).1 (spanOf r).2).length) := by
  unfold runWorker
  rw [h]
  refine ⟨(progFold_fs cl _ _).1, (progFold_fs cl _ _).2, ?_⟩
  rw [progFold_acc, chunkList_sum_length]

theorem runWorker_final (cl ch : ℕ) (server : ℤ → ℤ → List ℕ) (outcome : ℕ → WOutcome)
    (st : RunState) (r : PlannedRange) :
    (runWorker cl ch server outcome st r).fs.final = st.fs.final := by
  unfold runWorker
  cases houtcome : outcome r.idx with
  | ok => rw [(progFold_fs cl _ _).1]; rfl
  | fail d => cases d <;> rfl

theorem runWorker_failed_mono (cl ch : ℕ) (server : ℤ → ℤ → List ℕ) (outcome : ℕ → WOutcome)
    (st : RunState) (r : PlannedRange) (h : st.failed = true) :
    (runWorker cl ch server outcome st r).failed = true := by
  unfold runWorker
  cases houtcome : outcome r.idx with
  | ok => rw [(progFold_fs cl _ _).2]; exact h
  | fail d => cases d <;> rfl

theorem runWorker_fails (cl ch : ℕ) (server : ℤ → ℤ → List ℕ) (outcome : ℕ → WOutcome)
    (st : RunState) (r : PlannedRange) (h : outcome r.idx ≠ .ok) :
    (runWorker cl ch server outcome st r).failed = true := by
  unfold runWorker
  cases houtcome : outcome r.idx with
  | ok => exact absurd houtcome h
  | fail d => cases d <;> rfl

theorem workersFold_final (cl ch : ℕ) (server : ℤ → ℤ → List ℕ) (outcome : ℕ → WOutcome) :
    ∀ (rs : List PlannedRange) (st : RunState),
      ((rs.foldl (runWorker cl ch server outcome) st).fs.final = st.fs.final) := by
  intro rs
  induction rs with
  | nil => intro st; rfl
  | cons r t ih =>
    intro st
    simp only [List.foldl_cons]
    rw [ih, runWorker_final]

theorem workersFold_failed_mono (cl ch : ℕ) (server : ℤ → ℤ → List ℕ) (outcome : ℕ → WOutcome) :
    ∀ (rs : List PlannedRange) (st : RunState), st.failed = true →
      (rs.foldl (runWorker cl ch server outcome) st).failed = true := by
  intro rs
  induction rs with
  | nil => intro st h; exact h
  | cons r t ih =>
    intro st h
    simp only [List.foldl_cons]
    exact ih _ (runWorker_failed_mono cl ch server outcome st r h)

theorem workersFold_failed_of_fail (cl ch : ℕ) (server : ℤ → ℤ → List ℕ)
    (outcome : ℕ → WOutcome) :
    ∀ (rs : List PlannedRange) (st : RunState), (∃ r ∈ rs, outcome r.idx ≠ .ok) →
      (rs.foldl (runWorker cl ch server outcome) st).failed = true := by
  intro rs
  induction rs with
  | nil => intro st h; simp at h
  | cons r t ih =>
    intro st h
    simp only [List.foldl_cons]
    rcases h with ⟨r0, hr0, hne⟩
    rcases List.mem_cons.mp hr0 with heq | hmem
    · subst heq
      exact workersFold_failed_mono cl ch server outcome t _
        (runWorker_fails cl ch server outcome st r0 hne)
    · exact ih _ ⟨r0, hmem, hne⟩

theorem mergeFold_temps : ∀ (l : List ℕ) (p : FS × Bool),
    ((l.foldl mergeStep p).1.temps) = p.1.temps := by
  intro l
  induction l with
  | nil => intro p; rfl
  | cons i t ih =>
    intro p
    simp only [List.foldl_cons]
    rw [ih]
    obtain ⟨s, b⟩ := p
    cases b
    · rfl
    · cases hsi : s.temps i <;> simp [mergeStep, hsi]

theorem mergeFiles_temps (mc : ℕ) (fs : FS) : (mergeFiles mc fs).1.temps = fs.temps := by
  unfold mergeFiles
  rw [mergeFold_temps]

theorem mergeFold_final_isSome : ∀ (l : List ℕ) (p : FS × Bool),
    (∃ d, p.1.final = some d) → ∃ d, (l.foldl mergeStep p).1.final = some d := by
  intro l
  induction l with
  | nil => intro p h; exact h
  | cons i t ih =>
    intro p h
    simp only [List.foldl_cons]
    apply ih
    obtain ⟨s, b⟩ := p
    cases b
    · exact h
    · cases hsi : s.temps i
      · simpa [mergeStep, hsi] using h
      · simp [mergeStep, hsi]

theorem mergeFiles_final_isSome (mc : ℕ) (fs : FS) :
    ∃ d, (mergeFiles mc fs).1.final = some d := by
  unfold mergeFiles
  exact mergeFold_final_isSome _ _ ⟨[], rfl⟩

theorem mergeFold_ok : ∀ (l : List ℕ) (s : FS) (acc : List ℕ),
    (∀ i ∈ l, (s.temps i).isSome) →
    l.foldl mergeStep ({ s with final := some acc }, true)
      = ({ s with final := some (acc ++ (l.map (fun i => (s.temps i).getD [])).flatten) }, true) := by
  intro l
  induction l with
  | nil => intro s acc h; simp
  | cons i t ih =>
    intro s acc h
    obtain ⟨d, hd⟩ := Option.isSome_iff_exists.mp (h i (List.mem_cons_self i t))
    simp only [List.foldl_cons, mergeStep, hd, List.map_cons, List.flatten_cons,
      Option.getD_some]
    rw [chunkList_flatten]
    rw [ih s (acc ++ d) (fun j hj => h j (List.mem_cons_of_mem _ hj))]
    simp [List.append_assoc]

/-- `__merge_files` on a filesystem holding all scratch files `1 .. mc`:
succeeds and the destination is exactly their concatenation in index order. -/
theorem mergeFiles_concat (mc : ℕ) (fs : FS) (h : ∀ i ∈ clCounter mc, (fs.temps i).isSome) :
    mergeFiles mc fs
      = ({ fs with final := some (((clCounter mc).map (fun i => (fs.temps i).getD [])).flatten) },
         true) := by
  unfold mergeFiles
  have := mergeFold_ok (clCounter mc) fs [] h
  simpa using this

/-! ### Claim theorems: cleanup (C7), failure isolation (C4), merge failure (C5) -/

/-- C7: cleanup is idempotent — running `__delete_temps` twice equals running
it once, and running it on a filesystem with no scratch files is a no-op (the
model is a total function: a missing file is skipped, nothing is raised).
It deletes each derivable scratch index `1 .. workerCount` if present and
ignores it if absent. -/
theorem c7_cleanup_idempotent (mc : ℕ) (fs : FS) :
    deleteTemps mc (deleteTemps mc fs) = deleteTemps mc fs ∧
    ((∀ i, fs.temps i = none) → deleteTemps mc fs = fs) := by
  constructor
  · apply FS.ext
    · funext j
      rw [deleteTemps_temps, deleteTemps_temps]
      by_cases hj : 1 ≤ j ∧ j ≤ mc
      · simp [hj]
      · simp [hj]
    · rw [deleteTemps_final]
  · intro h
    apply FS.ext
    · funext j
      rw [deleteTemps_temps]
      by_cases hj : 1 ≤ j ∧ j ≤ mc
      · rw [if_pos hj, h j]
      · rw [if_neg hj]
    · exact deleteTemps_final mc fs

/-- Witness for C7 at `workerCount = 3` on the empty filesystem. -/
theorem c7_cleanup_idempotent_witness : deleteTemps 3 emptyFS = emptyFS :=
  (c7_cleanup_idempotent 3 emptyFS).2 (fun _ => rfl)

/-- C4 counterexample: at `contentLength = 1`, `workerCount = 6` the planner
creates 7 ranges; if worker 3 fails while the others succeed, the job aborts
with the uniform connection error and creates no final file, but worker 7's
scratch file survives cleanup — contradicting "no scratch file remains". -/
theorem c4_counterexample_orphan_scratch :
    ((download 1 6 1024 (sliceOrigin [42]) (fun i => if i = 3 then .fail none else .ok)
        emptyFS).result = .error .connectionRefused) ∧
    ((download 1 6 1024 (sliceOrigin [42]) (fun i => if i = 3 then .fail none else .ok)
        emptyFS).fs.final = none) ∧
    ((download 1 6 1024 (sliceOrigin [42]) (fun i => if i = 3 then .fail none else .ok)
        emptyFS).fs.temps 7 = some [42]) := by
  refine ⟨by decide, by decide, by decide⟩

/-- C4 amended: if any worker fails, the caller receives the single uniform
connection error regardless of which worker failed or why, no final output
file is created (the destination entry is untouched), and every scratch file
with index `1 .. workerCount` is removed.  Only an extra scratch file beyond
`workerCount` — which the planner can produce — may survive. -/
theorem c4_amended_failure_isolation (cl mc ch : ℕ) (server : ℤ → ℤ → List ℕ)
    (outcome : ℕ → WOutcome) (fs0 : FS)
    (h : ∃ r ∈ planRanges cl mc, outcome r.idx ≠ .ok) :
    ((download cl mc ch server outcome fs0).result = .error .connectionRefused) ∧
    ((download cl mc ch server outcome fs0).fs.final = fs0.final) ∧
    (∀ i, 1 ≤ i → i ≤ mc → (download cl mc ch server outcome fs0).fs.temps i = none) := by
  unfold download
  have hfail : ((planRanges cl mc).foldl (runWorker cl ch server outcome)
      ⟨fs0, 0, [], false⟩).failed = true :=
    workersFold_failed_of_fail cl ch server outcome _ _ h
  simp only [hfail, if_true]
  refine ⟨trivial, ?_, ?_⟩
  · rw [deleteTemps_final, workersFold_final]
  · intro i h1 h2
    rw [deleteTemps_temps]
    simp [h1, h2]

/-- Witness for C4's amended claim: concrete failing job, scratch 6 removed. -/
theorem c4_amended_failure_isolation_witness :
    ((download 1 6 1024 (sliceOrigin [42]) (fun i => if i = 3 then .fail none else .ok)
        emptyFS).result = .error .connectionRefused) ∧
    ((download 1 6 1024 (sliceOrigin [42]) (fun i => if i = 3 then .fail none else .ok)
        emptyFS).fs.temps 6 = none) :=
  ⟨(c4_amended_failure_isolation 1 6 1024 (sliceOrigin [42])
      (fun i => if i = 3 then .fail none else .ok) emptyFS (by decide)).1,
   (c4_amended_failure_isolation 1 6 1024 (sliceOrigin [42])
      (fun i => if i = 3 then .fail none else .ok) emptyFS (by decide)).2.2 6
      (by decide) (by decide)⟩

/-- C5 counterexample: with `workerCount = 2`, scratch 1 present and scratch
2 missing, the merge step fails; the error surfaces as a merge error with
scratch 1 still on disk (cleanup was never attempted) and a partially
written final file containing scratch 1's bytes. -/
theorem c5_counterexample_merge_failure :
    ((coordinatorFinish 2 (writeTemp 1 [7] emptyFS)).1 = .error .mergeError) ∧
    ((coordinatorFinish 2 (writeTemp 1 [7] emptyFS)).2.temps 1 = some [7]) ∧
    ((coordinatorFinish 2 (writeTemp 1 [7] emptyFS)).2.final = some [7]) := by
  refine ⟨by decide, by decide, by decide⟩

/-- C5 amended: if the merge step fails, the coordinator surfaces the merge
error WITHOUT attempting cleanup — the scratch files are exactly as they
were — and a partially written final output file (the bytes merged before
the failure) is left on disk. -/
theorem c5_amended_merge_failure_skips_cleanup (mc : ℕ) (fs : FS)
    (h : (mergeFiles mc fs).2 = false) :
    (coordinatorFinish mc fs = (.error .mergeError, (mergeFiles mc fs).1)) ∧
    ((mergeFiles mc fs).1.temps = fs.temps) ∧
    (∃ d, (mergeFiles mc fs).1.final = some d) := by
  refine ⟨?_, mergeFiles_temps mc fs, mergeFiles_final_isSome mc fs⟩
  unfold coordinatorFinish
  simp [h]

/-- Witness for C5's amended claim at the concrete merge-failure state. -/
theorem c5_amended_merge_failure_skips_cleanup_witness :
    coordinatorFinish 2 (writeTemp 1 [7] emptyFS)
      = (.error .mergeError, (mergeFiles 2 (writeTemp 1 [7] emptyFS)).1) :=
  (c5_amended_merge_failure_skips_cleanup 2 (writeTemp 1 [7] emptyFS) (by decide)).1

/-! ### Progress-trace lemmas and the remaining claims -/

theorem progStep_traceOK (cl : ℕ) (st : RunState) (c : List ℕ) (h : TraceOK st) :
    TraceOK (progStep cl st c) := by
  obtain ⟨h1, h2, h3⟩ := h
  refine ⟨?_, ?_, ?_⟩
  · unfold sumChunked progStep at *
    simp only [List.map_append, List.sum_append, List.map_cons, List.map_nil,
      List.sum_cons, List.sum_nil]
    omega
  · unfold progStep
    simp only [List.map_append, List.map_cons, List.map_nil]
    rw [List.chain'_append]
    refine ⟨h2, List.chain'_singleton _, ?_⟩
    intro x hx y hy
    simp only [List.head?_cons, Option.mem_def, Option.some_inj] at hy
    have hxa := h3 x hx
    omega
  · unfold progStep
    simp only [List.map_append, List.map_cons, List.map_nil, List.getLast?_concat]
    intro x hx
    simp only [Option.mem_def, Option.some_inj] at hx
    omega

theorem progFold_traceOK (cl : ℕ) : ∀ (l : List (List ℕ)) (st : RunState),
    TraceOK st → TraceOK (l.foldl (progStep cl) st) := by
  intro l
  induction l with
  | nil => intro st h; exact h
  | cons c t ih =>
    intro st h
    simp only [List.foldl_cons]
    exact ih _ (progStep_traceOK cl st c h)

theorem runWorker_traceOK (cl ch : ℕ) (server : ℤ → ℤ → List ℕ) (outcome : ℕ → WOutcome)
    (st : RunState) (r : PlannedRange) (h : TraceOK st) :
    TraceOK (runWorker cl ch server outcome st r) := by
  unfold runWorker
  cases houtcome : outcome r.idx with
  | ok => exact progFold_traceOK cl _ _ h
  | fail d => cases d <;> exact h

theorem workersFold_traceOK (cl ch : ℕ) (server : ℤ → ℤ → List ℕ) (outcome : ℕ → WOutcome) :
    ∀ (rs : List PlannedRange) (st : RunState), TraceOK st →
      TraceOK (rs.foldl (runWorker cl ch server outcome) st) := by
  intro rs
  induction rs with
  | nil => intro st h; exact h
  | cons r t ih =>
    intro st h
    simp only [List.foldl_cons]
    exact ih _ (runWorker_traceOK cl ch server outcome st r h)

theorem workersFold_acc_ok (cl ch : ℕ) (server : ℤ → ℤ → List ℕ) (outcome : ℕ → WOutcome) :
    ∀ (rs : List PlannedRange) (st : RunState), (∀ r ∈ rs, outcome r.idx = .ok) →
      (rs.foldl (runWorker cl ch server outcome) st).acc
        = st.acc + (rs.map (fun r => (server (spanOf r).1 (spanOf r).2).length)).sum := by
  intro rs
  induction rs with
  | nil => intro st _; simp
  | cons r t ih =>
    intro st h
    simp only [List.foldl_cons, List.map_cons, List.sum_cons]
    rw [ih _ (fun r0 hr0 => h r0 (List.mem_cons_of_mem _ hr0)),
      (runWorker_ok cl ch server outcome st r (h r (List.mem_cons_self r t))).2.2]
    omega

theorem download_trace (cl mc ch : ℕ) (server : ℤ → ℤ → List ℕ) (outcome : ℕ → WOutcome)
    (fs0 : FS) :
    (download cl mc ch server outcome fs0).trace
      = ((planRanges cl mc).foldl (runWorker cl ch server outcome) ⟨fs0, 0, [], false⟩).trace := by
  unfold download
  by_cases h : ((planRanges cl mc).foldl (runWorker cl ch server outcome)
      ⟨fs0, 0, [], false⟩).failed
  · simp [h]
  · simp [h]

theorem workersFold_fs_ok (cl ch : ℕ) (server : ℤ → ℤ → List ℕ) (outcome : ℕ → WOutcome) :
    ∀ (rs : List PlannedRange) (st : RunState), (∀ r ∈ rs, outcome r.idx = .ok) →
      ((rs.foldl (runWorker cl ch server outcome) st).fs
        = rs.foldl (fun fs r => writeTemp r.idx (server (spanOf r).1 (spanOf r).2) fs) st.fs) ∧
      ((rs.foldl (runWorker cl ch server outcome) st).failed = st.failed) := by
  intro rs
  induction rs with
  | nil => intro st _; exact ⟨rfl, rfl⟩
  | cons r t ih =>
    intro st h
    simp only [List.foldl_cons]
    have hok := h r (List.mem_cons_self r t)
    have hw := runWorker_ok cl ch server outcome st r hok
    have iht := ih (runWorker cl ch server outcome st r)
      (fun r0 hr0 => h r0 (List.mem_cons_of_mem _ hr0))
    exact ⟨by rw [iht.1, hw.1], by rw [iht.2, hw.2.1]⟩

/-- C6 counterexample: a successful job at `contentLength = 1`,
`workerCount = 2` with a range-slicing origin reports two 1-byte chunks:
the chunk sizes reported to the progress callback sum to 2, not to
`contentLength = 1` (both workers fetched byte 0). -/
theorem c6_counterexample_progress_overcount :
    ((download 1 2 1024 (sliceOrigin [9]) (fun _ => .ok) emptyFS).result = .ok [9, 9]) ∧
    ((download 1 2 1024 (sliceOrigin [9]) (fun _ => .ok) emptyFS).trace
      = [⟨1, 1, 1⟩, ⟨2, 1, 1⟩]) ∧
    (sumChunked (download 1 2 1024 (sliceOrigin [9]) (fun _ => .ok) emptyFS).trace = 2) := by
  refine ⟨by decide, by decide, by decide⟩

/-- C6 amended: after a job in which every worker succeeded, the sum of the
per-chunk byte counts passed to the progress callback equals the total
number of bytes received across all range responses (which need not equal
`contentLength`, since the truncated spans can overlap), and the callback's
first argument (the running total) is non-decreasing across the sequence of
calls. -/
theorem c6_amended_progress_accounting (cl mc ch : ℕ) (server : ℤ → ℤ → List ℕ)
    (outcome : ℕ → WOutcome) (fs0 : FS)
    (hall : ∀ r ∈ planRanges cl mc, outcome r.idx = .ok) :
    (sumChunked (download cl mc ch server outcome fs0).trace
      = ((planRanges cl mc).map (fun r => (server (spanOf r).1 (spanOf r).2).length)).sum) ∧
    List.Chain' (· ≤ ·) ((download cl mc ch server outcome fs0).trace.map ProgCall.current) := by
  have h0 : TraceOK ⟨fs0, 0, [], false⟩ := by
    refine ⟨rfl, List.chain'_nil, ?_⟩
    intro x hx
    simp [sumChunked] at hx
  have hT := workersFold_traceOK cl ch server outcome (planRanges cl mc) _ h0
  have hacc := workersFold_acc_ok cl ch server outcome (planRanges cl mc) ⟨fs0, 0, [], false⟩ hall
  rw [download_trace]
  exact ⟨by rw [hT.1, hacc]; simp, hT.2.1⟩

/-- Witness for C6's amended claim: one worker, two bytes. -/
theorem c6_amended_progress_accounting_witness :
    (sumChunked (download 2 1 1024 (sliceOrigin [4, 5]) (fun _ => .ok) emptyFS).trace
      = ((planRanges 2 1).map
          (fun r => ((sliceOrigin [4, 5]) (spanOf r).1 (spanOf r).2).length)).sum) ∧
    List.Chain' (· ≤ ·)
      ((download 2 1 1024 (sliceOrigin [4, 5]) (fun _ => .ok) emptyFS).trace.map
        ProgCall.current) :=
  c6_amended_progress_accounting 2 1 1024 (sliceOrigin [4, 5]) (fun _ => .ok) emptyFS
    (by decide)

/-- C8 counterexample: `max_concurrency = 0` is not rejected — Python's
`max_concurrency or MAX_CONCURRENCY` treats `0` as falsy, so construction
succeeds, silently storing the default `4`, and the job proceeds (the probe
request is made). -/
theorem c8_counterexample_zero_worker_count :
    initModel "u" "f" true true true (some 0) none = (.ok ⟨"u", "f", 4, 1024⟩, 1) := by
  decide

/-- C8 amended: the system does not fail fast for `workerCount ≤ 0`:
construction accepts every non-positive worker count — `0` is silently
replaced by the default `4`, and a negative value is stored unchanged (its
failure, if any, happens only later, outside construction). -/
theorem c8_amended_nonpositive_accepted (url fn : String) (mc : ℤ) (h : mc ≤ 0) :
    (initModel url fn true true true (some mc) none).1
      = .ok ⟨url, fn, if mc = 0 then 4 else mc, 1024⟩ := by
  by_cases h0 : mc = 0 <;> simp [initModel, orDefault, h0]

/-- Witness for C8's amended claim at `workerCount = -2`. -/
theorem c8_amended_nonpositive_accepted_witness :
    (initModel "u" "f" true true true (some (-2)) none).1
      = .ok ⟨"u", "f", if (-2 : ℤ) = 0 then 4 else -2, 1024⟩ :=
  c8_amended_nonpositive_accepted "u" "f" (-2) (by norm_num)

/-- C9: construction raises a configuration error exactly when the
destination path is empty, does not exist, or is not a directory — and then
performs no network request (the probe count is 0); for a valid destination
directory construction succeeds, storing the supplied url and file name and
the documented defaults for the optional parameters, and only then probes
the origin once. -/
theorem c9_construction_validation (url fn : String) (pne pex pdir : Bool)
    (mc chunk : Option ℤ) :
    ((pne = false ∨ pex = false ∨ pdir = false) →
      ∃ err, initModel url fn pne pex pdir mc chunk = (.error err, 0)) ∧
    (pne = true → pex = true → pdir = true →
      initModel url fn pne pex pdir mc chunk
        = (.ok ⟨url, fn, orDefault mc 4, orDefault chunk 1024⟩, 1)) := by
  constructor
  · intro h
    cases pne
    · exact ⟨.pathNotExists, rfl⟩
    · cases pex
      · exact ⟨.pathNotExists, rfl⟩
      · cases pdir
        · exact ⟨.pathNotDir, rfl⟩
        · simp at h
  · intro h1 h2 h3
    subst h1
    subst h2
    subst h3
    rfl

/-- Witness for C9: an invalid path is rejected with no network activity; a
valid path constructs and stores the parameters. -/
theorem c9_construction_validation_witness :
    (∃ err, initModel "u" "f" false true true none none = (.error err, 0)) ∧
    initModel "u" "f" true true true none none = (.ok ⟨"u", "f", 4, 1024⟩, 1) :=
  ⟨(c9_construction_validation "u" "f" false true true none none).1 (Or.inl rfl),
   (c9_construction_validation "u" "f" true true true none none).2 rfl rfl rfl⟩

/-! ### Claim theorems: merge round-trip (C3) -/

/-- C3 counterexample: at `contentLength = 2`, `workerCount = 3` (content
smaller than worker count) a fully successful job merges the scratch files
into `[5, 5, 9]` — byte 0 duplicated — instead of the original `[5, 9]`:
the merge does concatenate the scratch files in index order, but the spans
they were filled from overlap, so the original byte sequence is NOT
reproduced when `contentLength < workerCount`. -/
theorem c3_counterexample_short_content :
    ((download 2 3 1024 (sliceOrigin [5, 9]) (fun _ => .ok) emptyFS).result = .ok [5, 5, 9]) ∧
    ((Except.ok [5, 5, 9] : Except DlError (List ℕ)) ≠ .ok [5, 9]) := by
  refine ⟨by decide, by decide⟩

/-- C3 amended: merging produces a final file whose content is exactly the
concatenation of the scratch files' contents in ascending worker-index order
(for any scratch contents, read in fixed-size blocks); with scratch files
populated from the actually requested spans this reproduces the original
byte sequence when `contentLength` is not evenly divisible by `workerCount`
— e.g. `contentLength = 10`, `workerCount = 3`, any 10-byte original — but
not when `contentLength` is smaller than `workerCount`. -/
theorem c3_amended_merge_concat :
    (∀ (mc : ℕ) (fs : FS), (∀ i ∈ clCounter mc, (fs.temps i).isSome) →
      ((mergeFiles mc fs).2 = true ∧
       (mergeFiles mc fs).1.final
         = some (((clCounter mc).map (fun i => (fs.temps i).getD [])).flatten))) ∧
    (∀ orig : List ℕ, orig.length = 10 →
      (download 10 3 1024 (sliceOrigin orig) (fun _ => .ok) emptyFS).result = .ok orig) := by
  constructor
  · intro mc fs h
    rw [mergeFiles_concat mc fs h]
    exact ⟨rfl, rfl⟩
  · intro orig hlen
    have hplan : planRanges 10 3 = [⟨1, ⟨0, 0⟩, ⟨7505999378950827, -51⟩⟩,
        ⟨2, ⟨7505999378950827, -51⟩, ⟨7505999378950827, -50⟩⟩,
        ⟨3, ⟨7505999378950827, -50⟩, ⟨5629499534213120, -49⟩⟩] := by decide
    have hall : ∀ r ∈ planRanges 10 3, (fun _ => WOutcome.ok) r.idx = WOutcome.ok :=
      fun r _ => rfl
    have hw := workersFold_fs_ok 10 1024 (sliceOrigin orig) (fun _ => .ok)
      (planRanges 10 3) ⟨emptyFS, 0, [], false⟩ hall
    have hc1 : sliceOrigin orig 0 2 = orig.take 3 := by
      unfold sliceOrigin
      rw [if_pos (by norm_num)]
      simp only [show ((2 : ℤ) - 0 + 1).toNat = 3 from rfl, show (0 : ℤ).toNat = 0 from rfl,
        List.drop_zero]
    have hc2 : sliceOrigin orig 3 5 = (orig.drop 3).take 3 := by
      unfold sliceOrigin
      rw [if_pos (by norm_num)]
      simp only [show ((5 : ℤ) - 3 + 1).toNat = 3 from rfl, show (3 : ℤ).toNat = 3 from rfl]
    have hc3 : sliceOrigin orig 6 9 = (orig.drop 6).take 4 := by
      unfold sliceOrigin
      rw [if_pos (by norm_num)]
      simp only [show ((9 : ℤ) - 6 + 1).toNat = 4 from rfl, show (6 : ℤ).toNat = 6 from rfl]
    have hfs : ((planRanges 10 3).foldl (runWorker 10 1024 (sliceOrigin orig) (fun _ => .ok))
        ⟨emptyFS, 0, [], false⟩).fs
        = writeTemp 3 ((orig.drop 6).take 4)
            (writeTemp 2 ((orig.drop 3).take 3) (writeTemp 1 (orig.take 3) emptyFS)) := by
      rw [hw.1, hplan]
      simp only [List.foldl_cons, List.foldl_nil]
      rw [show (spanOf ⟨1, ⟨0, 0⟩, ⟨7505999378950827, -51⟩⟩).1 = (0 : ℤ) from by decide,
        show (spanOf ⟨1, ⟨0, 0⟩, ⟨7505999378950827, -51⟩⟩).2 = (2 : ℤ) from by decide,
        show (spanOf ⟨2, ⟨7505999378950827, -51⟩, ⟨7505999378950827, -50⟩⟩).1 = (3 : ℤ)
          from by decide,
        show (spanOf ⟨2, ⟨7505999378950827, -51⟩, ⟨7505999378950827, -50⟩⟩).2 = (5 : ℤ)
          from by decide,
        show (spanOf ⟨3, ⟨7505999378950827, -50⟩, ⟨5629499534213120, -49⟩⟩).1 = (6 : ℤ)
          from by decide,
        show (spanOf ⟨3, ⟨7505999378950827, -50⟩, ⟨5629499534213120, -49⟩⟩).2 = (9 : ℤ)
          from by decide]
      rw [hc1, hc2, hc3]
    have hff : ((planRanges 10 3).foldl (runWorker 10 1024 (sliceOrigin orig) (fun _ => .ok))
        ⟨emptyFS, 0, [], false⟩).failed = false := hw.2
    simp only [download, hff, Bool.false_eq_true, if_false]
    rw [hfs]
    have hpres : ∀ i ∈ clCounter 3, ((writeTemp 3 ((orig.drop 6).take 4)
        (writeTemp 2 ((orig.drop 3).take 3) (writeTemp 1 (orig.take 3) emptyFS))).temps i).isSome := by
      intro i hi
      have hi3 : i = 1 ∨ i = 2 ∨ i = 3 := by
        have hb := List.mem_range'_1.mp hi
        omega
      rcases hi3 with h | h | h <;> subst h <;> simp [writeTemp]
    unfold coordinatorFinish
    rw [mergeFiles_concat 3 _ hpres]
    have hmap : ((clCounter 3).map (fun i => ((writeTemp 3 ((orig.drop 6).take 4)
        (writeTemp 2 ((orig.drop 3).take 3) (writeTemp 1 (orig.take 3) emptyFS))).temps i).getD []))
        = [orig.take 3, (orig.drop 3).take 3, (orig.drop 6).take 4] := by
      rw [show clCounter 3 = [1, 2, 3] from by decide]
      simp [writeTemp]
    rw [hmap]
    have hid : ([orig.take 3, (orig.drop 3).take 3, (orig.drop 6).take 4] : List (List ℕ)).flatten
        = orig := by
      simp only [List.flatten_cons, List.flatten_nil, List.append_nil]
      have h4 : (orig.drop 6).take 4 = orig.drop 6 := List.take_of_length_le (by simp [hlen])
      rw [h4, show (6 : ℕ) = 3 + 3 from by norm_num, ← List.drop_drop,
        List.take_append_drop, List.take_append_drop]
    rw [hid]
    rfl

/-- Witness for C3's amended claim: one-worker merge of a single scratch
file, and the 10-byte round trip at `contentLength = 10`, `workerCount = 3`. -/
theorem c3_amended_merge_concat_witness :
    ((mergeFiles 1 (writeTemp 1 [3] emptyFS)).2 = true ∧
     (mergeFiles 1 (writeTemp 1 [3] emptyFS)).1.final
       = some (((clCounter 1).map
           (fun i => ((writeTemp 1 [3] emptyFS).temps i).getD [])).flatten)) ∧
    (download 10 3 1024 (sliceOrigin (List.range 10)) (fun _ => .ok) emptyFS).result
      = .ok (List.range 10) :=
  ⟨c3_amended_merge_concat.1 1 (writeTemp 1 [3] emptyFS) (by decide),
   c3_amended_merge_concat.2 (List.range 10) (by decide)⟩

end Downloader
